import Mathlib

/-!
Verification development for the odo/into data-migration framework and the
bundled task-graph core. Each backend operation referenced by the checked
properties is shallowly embedded from the Python source:

* `into/backends/h5py.py` — HDF5 array backend (`h5py_to_numpy`,
  `h5py_to_numpy_chunks`, `h5py_to_numpy_iterator`, `append_h5py`,
  `cleanup_file`, `cleanup_dataset`);
* `into/backends/hdfstore.py` — hierarchical labeled-table backend
  (`ensure_indexing`, `append_chunks_to_hdfstore`,
  `hdfstore_to_dataframe_chunks`, `cleanup`);
* `into/backends/aws.py` — S3 backend (`get_s3_connection`, `sample_s3_csv`,
  `convert_csv_to_s3`);
* the task-graph core (`get`, `fuse`), whose module is not part of the
  sources here and is therefore modelled from the specification, with the
  normative test suite (`dask/tests/test_core.py`) fixing its behavior.

Machine integers do not occur on the verified paths; Python ints are
unbounded and are modelled as `Int`/`Nat` directly.  Fallible Python code is
modelled with `Except`/`Option`; Python exception classes are collapsed into
the small enumeration `PyExc` below.
-/

/-- Python exception classes that occur on the modelled paths. -/
inductive PyExc where
  | typeError
  | valueError
  | memoryError
  | assertionError
  | appendError
  | invalidId
deriving DecidableEq

/-! ## HDF5 array backend (`into/backends/h5py.py`)

A `h5py.Dataset` is modelled as its shape together with its flat
(row-major) payload; `size` is the product of the shape, `len` its leading
dimension, exactly as in numpy/h5py. -/

/-- Model of an n-dimensional array or HDF5 dataset: shape plus row-major
payload. -/
structure NDArr where
  shape : List Nat
  data : List Int
deriving DecidableEq

/-- Number of elements, as in `dset.size` (product of the shape). -/
def NDArr.size (a : NDArr) : Nat := a.shape.prod

/-- Embedding of `h5py_to_numpy` (h5py.py lines 186-193).  The source reads

```python
if dset.size > 1e9:
    raise MemoryError("File size is large: %0.2f GB.\n"
                      "Convert with flag force=True to force loading" %
                      dset.size / 1e9)
else:
    return dset[:]
```

The `force` parameter is accepted but never consulted.  Moreover `%` and `/`
have equal precedence and associate left, so the raising branch evaluates
`("..." % dset.size) / 1e9`, a string divided by a float, which raises
`TypeError` while building the intended `MemoryError`.  Both facts are kept
in the model. -/
def h5py_to_numpy (dset : NDArr) (force : Bool) : Except PyExc (List Int) :=
  if 1000000000 < dset.size then .error .typeError
  else .ok dset.data

/-- Embedding of `append_h5py` (h5py.py lines 159-168):

```python
if not sum(x.shape):
    return dset
shape = list(dset.shape)
shape[0] += len(x)
dset.resize(shape)
dset[-len(x):] = x
return dset
```

The guard tests `sum(x.shape) == 0`, not emptiness of `x`.  `dset.resize`
pads the new trailing rows with the fill value `0`; the final assignment
targets the Python slice `dset[-len(x):]`, whose start index is the whole
dataset when `len(x) == 0` because `-0 == 0`.  The assignment succeeds only
when the shape of `x` matches the selected region (h5py raises a broadcast
error otherwise), which the model renders as `none`. -/
def append_h5py (dset x : NDArr) : Option NDArr :=
  if x.shape.sum = 0 then some dset
  else
    let n := x.shape.headD 0
    let dn := dset.shape.headD 0
    let tl := dset.shape.tail
    let rowSz := tl.prod
    let newLen := dn + n
    let start := if n = 0 then 0 else newLen - n
    if x.shape = (newLen - start) :: tl then
      some ⟨newLen :: tl,
            ((dset.data ++ List.replicate (n * rowSz) 0).take (start * rowSz)) ++ x.data⟩
    else none

/-- Indices `0, cs, 2*cs, ...` below `n`, as produced by
`range(0, n, cs)` for a positive step `cs`. -/
def rangeStep (n cs : Nat) : List Nat :=
  (List.range ((n + cs - 1) / cs)).map (· * cs)

/-- Leading-dimension slice `t[i : i+cnt]` of a dataset. -/
def NDArr.sliceLead (t : NDArr) (i cnt : Nat) : NDArr :=
  let n := t.shape.headD 0
  let tl := t.shape.tail
  let rowSz := tl.prod
  let stop := min (i + cnt) n
  ⟨(stop - i) :: tl, (t.data.drop (i * rowSz)).take ((stop - i) * rowSz)⟩

/-- Embedding of `h5py_to_numpy_iterator` (h5py.py lines 201-207): the
generator `for i in range(0, t.shape[0], chunksize): yield t[i:i+chunksize]`,
rendered as the list of pieces the generator yields over its lifetime. -/
def h5py_to_numpy_iterator (t : NDArr) (chunksize : Nat) : List NDArr :=
  (rangeStep (t.shape.headD 0) chunksize).map (fun i => t.sliceLead i chunksize)

/-! ## Chunked-sequence abstraction (`into/chunks.py`, not in the sources)

Modelled from the spec: §4.2 describes the chunked-sequence value as a
wrapper over a zero-argument chunk-producing factory that is re-invoked on
each independent iteration request.  The class in `into/chunks.py` is not
part of the provided sources; backends in the sources construct it either
over such a factory (`hdfstore.py` line 164) or over an already-created
Python generator (`h5py.py` line 198).  A generator is a single-use
iterator: a full first iteration exhausts it and a second iteration of the
same object yields nothing.  The model keeps both construction modes. -/

/-- Chunked-sequence value: either a restartable zero-argument factory or an
already-created single-use generator. -/
inductive Chunks (α : Type) where
  | factory (f : Unit → List α)
  | gen (xs : List α)

/-- Pieces produced by the first iteration request over a chunked-sequence
value. -/
def Chunks.iterFirst {α : Type} : Chunks α → List α
  | .factory f => f ()
  | .gen xs => xs

/-- Pieces produced by a second, independent iteration request: a factory is
re-invoked, while an already-exhausted generator yields nothing. -/
def Chunks.iterSecond {α : Type} : Chunks α → List α
  | .factory f => f ()
  | .gen _ => []

/-- Embedding of `h5py_to_numpy_chunks` (h5py.py lines 196-198):

```python
return chunks(np.ndarray)(h5py_to_numpy_iterator(t, chunksize=chunksize, **kwargs))
```

The call `h5py_to_numpy_iterator(t, ...)` creates a generator object, and it
is that generator — not a zero-argument factory — that is stored in the
chunked-sequence value. -/
def h5py_to_numpy_chunks (t : NDArr) (chunksize : Nat) : Chunks NDArr :=
  .gen (h5py_to_numpy_iterator t chunksize)

/-- State of an HDF5 file handle. -/
structure H5File where
  closed : Bool
deriving DecidableEq

/-- State of an HDF5 dataset handle: whether its owning file has been
closed.  In h5py, closing the file invalidates every object identifier in
it, and reading `dset.file` afterwards raises. -/
structure H5Dset where
  fileClosed : Bool
deriving DecidableEq

/-- Reading the `.file` attribute of a dataset: raises once the owning file
has been closed (invalid object identifier), else returns the open file. -/
def H5Dset.fileAttr (d : H5Dset) : Except PyExc H5File :=
  if d.fileClosed then .error .invalidId else .ok ⟨false⟩

/-- Closing an h5py file handle; closing an already-closed handle raises. -/
def H5File.close (f : H5File) : Except PyExc H5File :=
  if f.closed then .error .valueError else .ok ⟨true⟩

/-- Embedding of `cleanup_file` (h5py.py lines 146-151): `f.close()` wrapped
in a bare `try/except: pass`, so any error from the close is swallowed. -/
def cleanup_file (f : H5File) : Except PyExc H5File :=
  match f.close with
  | .ok f2 => .ok f2
  | .error _ => .ok ⟨true⟩

/-- Embedding of `cleanup_dataset` (h5py.py lines 154-156): the body is the
bare statement `dset.file.close()` with no exception handling, so the
attribute read `dset.file` (and any close error) propagates. -/
def cleanup_dataset (d : H5Dset) : Except PyExc H5Dset :=
  match d.fileAttr with
  | .ok _ => .ok ⟨true⟩
  | .error e => .error e

/-! ## Hierarchical labeled-table backend (`into/backends/hdfstore.py`) -/

/-- State of an open HDFStore table node: the autoindex flag of the
underlying pytables table, whether `reindex_dirty` has been run, and the
stored rows. -/
structure HStore where
  autoindex : Bool
  reindexed : Bool
  rows : List (List Int)
deriving DecidableEq

/-- An incoming in-memory chunk: `some rows` appends cleanly, `none` stands
for a chunk whose append raises inside the store (e.g. a schema mismatch). -/
def HChunk := Option (List (List Int))

/-- Appending one in-memory frame to an existing table
(`append_frame_to_hdfstore`, hdfstore.py lines 86-92): the rows are written
to the tail; a bad chunk raises. -/
def append_frame_to_hdfstore (s : HStore) (c : HChunk) : Except PyExc HStore :=
  match c with
  | some rows => .ok { s with rows := s.rows ++ rows }
  | none => .error .appendError

/-- Embedding of `append_chunks_to_hdfstore` for an existing table
(hdfstore.py lines 110-123) together with the `ensure_indexing` context
manager it enters (lines 22-34):

```python
@contextmanager
def ensure_indexing(t):
    t.table.autoindex=False
    yield
    t.table.autoindex=True
    t.table.reindex_dirty()
```

The generator has no `try/finally`: when a chunk append raises, the
exception is thrown into the generator at `yield` and the two statements
after the `yield` never run, so the function returns the propagating error
with autoindexing still disabled and no reindex performed.  On clean exit
both post-`yield` statements run. -/
def append_chunks_to_hdfstore (s : HStore) (cs : List HChunk) : Option PyExc × HStore :=
  let rec go (st : HStore) : List HChunk → Option PyExc × HStore
    | [] => (none, { st with autoindex := true, reindexed := true })
    | c :: rest =>
      match append_frame_to_hdfstore st c with
      | .ok st2 => go st2 rest
      | .error e => (some e, st)
  go { s with autoindex := false } cs

/-- Splitting a row list into pieces of `cs` rows (the chunked selection a
pandas `select(..., chunksize=cs)` iterator performs); the extra fuel
argument only drives termination and is instantiated with the row count. -/
def chopN {α : Type} (cs : Nat) : Nat → List α → List (List α)
  | 0, _ => []
  | _, [] => []
  | fuel + 1, xs => xs.take cs :: chopN cs fuel (xs.drop cs)

/-- Fresh chunked selection over a table, `chunksize` rows per piece. -/
def hdfstore_select_chunks (rows : List (List Int)) (cs : Nat) : List (List (List Int)) :=
  chopN cs rows.length rows

/-- Embedding of `hdfstore_to_dataframe_chunks` (hdfstore.py lines 155-164):

```python
def load():
    return t.parent.select(t.group._v_name, chunksize=chunksize, **kwargs)
return chunks(pd.DataFrame)(load)
```

Here the chunked-sequence value is built over the zero-argument closure
`load`, which performs a fresh chunked selection each time it is invoked. -/
def hdfstore_to_dataframe_chunks (rows : List (List Int)) (chunksize : Nat) :
    Chunks (List (List Int)) :=
  .factory (fun _ => hdfstore_select_chunks rows chunksize)

/-- Embedding of the hdfstore `cleanup` (hdfstore.py lines 258-263):
`t.parent.close()` wrapped in a bare `try/except: pass`. -/
def cleanup_hdfstore (storeClosed : Bool) : Except PyExc Bool :=
  match (if storeClosed then (.error .valueError : Except PyExc Bool) else .ok true) with
  | .ok r => .ok r
  | .error _ => .ok true

/-! ## S3 backend (`into/backends/aws.py`) -/

/-- Credential environment visible to `get_s3_connection`: the boto
configuration file section `[Credentials]` and the process environment
variables. -/
structure AwsWorld where
  cfgKey : Option String
  cfgSecret : Option String
  envKey : Option String
  envSecret : Option String
deriving DecidableEq

/-- Argument triple of `get_s3_connection`, which is also the memoization
key used by the `@memoize` decorator on it. -/
structure ConnArgs where
  key : Option String
  secret : Option String
  anon : Bool
deriving DecidableEq

/-- A boto S3 connection object.  `connId` models Python object identity:
`boto.connect_s3` always builds a fresh object, so distinct calls produce
distinct identities unless the memo cache returns an existing one. -/
structure S3Conn where
  connId : Nat
  key : Option String
  secret : Option String
  anon : Bool
deriving DecidableEq

/-- Credential resolution for one credential (aws.py lines 25-35): the
explicit argument wins, then the configuration file, then the environment. -/
def resolveCred (arg cfg env : Option String) : Option String :=
  match arg with
  | some k => some k
  | none =>
    match cfg with
    | some k => some k
    | none => env

/-- Body of `get_s3_connection` (aws.py lines 21-42) without the memoize
wrapper: resolve both credentials, then

```python
anon = (not anon and
        aws_access_key_id is None and
        aws_secret_access_key is None)
return boto.connect_s3(aws_access_key_id, aws_secret_access_key, anon=anon)
```

`fresh` is the identity given to the newly constructed connection. -/
def get_s3_connection_body (w : AwsWorld) (a : ConnArgs) (fresh : Nat) : S3Conn :=
  let k := resolveCred a.key w.cfgKey w.envKey
  let s := resolveCred a.secret w.cfgSecret w.envSecret
  let anon := (!a.anon) && k.isNone && s.isNone
  ⟨fresh, k, s, anon⟩

/-- Process-wide memo table of `@memoize` keyed by the raw argument triple,
plus a counter supplying fresh object identities. -/
structure ConnMemo where
  cache : List (ConnArgs × S3Conn)
  counter : Nat

/-- Embedding of the memoized `get_s3_connection`: a cache hit on the
argument triple returns the cached connection object unchanged; a miss runs
the body and stores the result. -/
def get_s3_connection (w : AwsWorld) (m : ConnMemo) (a : ConnArgs) : S3Conn × ConnMemo :=
  match m.cache.find? (fun p => decide (p.1 = a)) with
  | some p => (p.2, m)
  | none =>
    let c := get_s3_connection_body w a m.counter
    (c, ⟨(a, c) :: m.cache, m.counter + 1⟩)

/-- Search for the last index `i < n` satisfying `p`, the semantics of the
Python `bytes.rindex` family restricted to the first `n` positions. -/
def lastSat (p : Nat → Bool) : Nat → Option Nat
  | 0 => none
  | n + 1 => if p n then some n else lastSat p n

/-- Embedding of `sample_s3_csv` (aws.py lines 87-130).  The byte-range
request `{'Range': 'bytes=0-%d' % length}` is inclusive, so it retrieves at
most `length + 1` bytes.  Then

```python
try:
    index = raw.rindex(b'\r\n')
except ValueError:
    index = raw.rindex(b'\n')
raw = raw[:index]
```

trims at the last CRLF, falling back to the last bare LF; if neither occurs
the second `rindex` raises `ValueError`, modelled as `none`.  The value
returned is the byte content written to the temporary file whose path the
context manager yields. -/
def sample_s3_csv (obj : List Nat) (length : Nat) : Option (List Nat) :=
  let raw := obj.take (length + 1)
  match lastSat (fun i => decide (raw[i]? = some 13) && decide (raw[i + 1]? = some 10))
      raw.length with
  | some i => some (raw.take i)
  | none =>
    match lastSat (fun i => decide (raw[i]? = some 10)) raw.length with
    | some i => some (raw.take i)
    | none => none

/-- Statement of claim C7 exactly as written: for every remote object larger
than the requested sample length, `sample` yields bytes that are a prefix of
the object, contain only whole lines (the byte after the cut starts a line
terminator), and fit the requested budget. -/
def SampleClaim : Prop :=
  ∀ (obj : List Nat) (length : Nat), length < obj.length →
    ∃ out, sample_s3_csv obj length = some out ∧
      (∃ rest, out ++ rest = obj) ∧
      out.length ≤ length ∧
      (∃ i, out = (obj.take (length + 1)).take i ∧
        (((obj.take (length + 1))[i]? = some 13 ∧ (obj.take (length + 1))[i + 1]? = some 10) ∨
          (obj.take (length + 1))[i]? = some 10))

/-- A local CSV resource: its path (as segments) and byte content. -/
structure CSVFile where
  pathSegs : List String
  content : List Nat
deriving DecidableEq

/-- Record of one completed S3 upload. -/
structure UploadRec where
  bucket : String
  key : String
  contentType : String
  content : List Nat
deriving DecidableEq

/-- Remote-side state touched by `convert_csv_to_s3`. -/
structure S3State where
  buckets : List String
  uploads : List UploadRec
deriving DecidableEq

/-- Embedding of `convert_csv_to_s3` (aws.py lines 133-152).  The
`assert bucket_name is not None` runs before any connection or transfer.
After fetching or creating the bucket and uploading the file under the key
`os.path.basename(csv.path)` with content type `text/csv`, the source
returns

```python
return S3(CSV('s3://%s/%s' % (bucket.name, key.key)), s3=s3)
```

but `S3` is the memoized one-argument type constructor (aws.py lines
61-72): it is being called with a CSV instance and an unexpected keyword
argument `s3`, which raises `TypeError` after the upload has happened. -/
def convert_csv_to_s3 (csv : CSVFile) (bucket_name : Option String) (st : S3State) :
    Except PyExc UploadRec × S3State :=
  match bucket_name with
  | none => (.error .assertionError, st)
  | some b =>
    let st1 := if st.buckets.contains b then st else { st with buckets := st.buckets ++ [b] }
    let k := csv.pathSegs.getLastD ""
    let rec2 : UploadRec := ⟨b, k, "text/csv", csv.content⟩
    let st2 := { st1 with uploads := st1.uploads ++ [rec2] }
    (.error .typeError, st2)

/-! ## Task-graph core (modelled from the spec)

Modelled from the spec: the module `dask/core.py` defining `get` and `fuse`
is not among the provided sources — only its normative test suite
(`dask/tests/test_core.py`) is.  The embedding below follows §3 and §4.1 of
the spec, with the test suite fixing the points the prose leaves open:

* a task is a literal, a key reference (resolved transitively), a nested
  list of tasks, or an application node (callable plus argument tasks);
* `get` resolves a key to its task and evaluates it recursively; a value
  not present as a graph key is returned as a literal; recursion beyond the
  platform-safe call-stack depth — in particular any genuine cycle — is
  surfaced as an explicit Cycle-Or-Too-Deep runtime failure;
* `fuse` performs linear-chain fusion.  Per the spec, a dependency key with
  exactly one dependent and no root status is inlined into that dependent
  and eliminated; per the normative `test_fuse` cases, fusion applies only
  along strictly linear links: the unique dependent must reference exactly
  one in-graph key occurrence in total (a parent such as `(add, 'a', 'b')`
  or `(add, 'b', 'b')` fuses none of its children).

Keys are modelled as natural numbers, callables as the symbols `finc` and
`fadd` with their arithmetic meaning from the test suite. -/

/-- Callables occurring in task graphs (`inc` and `add` of the test suite). -/
inductive Fn where
  | finc
  | fadd
deriving DecidableEq

mutual
/-- A task: literal, key reference, nested list, or application node. -/
inductive DTask where
  | lit (n : Int)
  | key (k : Nat)
  | tlist (ts : DTList)
  | app (f : Fn) (args : DTList)
deriving DecidableEq
/-- Argument or list-task sequences. -/
inductive DTList where
  | tnil
  | tcons (t : DTask) (ts : DTList)
deriving DecidableEq
end

mutual
/-- Values produced by evaluation: integers or nested lists. -/
inductive DVal where
  | vi (n : Int)
  | vlist (vs : DVList)
deriving DecidableEq
/-- Lists of values. -/
inductive DVList where
  | vnil
  | vcons (v : DVal) (vs : DVList)
deriving DecidableEq
end

/-- Evaluation failures of the task-graph core. -/
inductive DErr where
  | cycleOrTooDeep
  | typeError
deriving DecidableEq

/-- A task graph: a finite mapping from key to task, in insertion order. -/
abbrev DGraph := List (Nat × DTask)

/-- Dictionary lookup on a graph. -/
def glookup (g : DGraph) (k : Nat) : Option DTask :=
  match g.find? (fun p => p.1 == k) with
  | some p => some p.2
  | none => none

/-- Keys of a graph. -/
def gkeys (g : DGraph) : List Nat := g.map Prod.fst

/-- Task stored at a key (defaulting for absent keys; only used under a
membership hypothesis). -/
def taskOf (g : DGraph) (k : Nat) : DTask :=
  (glookup g k).getD (.lit 0)

/-- Application of a callable to fully evaluated arguments: `inc` and `add`
with their integer meaning; anything else is a Python `TypeError`. -/
def applyFn : Fn → DVList → Except DErr DVal
  | .finc, .vcons (.vi n) .vnil => .ok (.vi (n + 1))
  | .fadd, .vcons (.vi a) (.vcons (.vi b) .vnil) => .ok (.vi (a + b))
  | _, _ => .error .typeError

/-- Evaluation of a task sequence with a given evaluator for the pieces. -/
def evalList (rec : DTask → Except DErr DVal) : DTList → Except DErr DVList
  | .tnil => .ok .vnil
  | .tcons t ts => do
    let v ← rec t
    let vs ← evalList rec ts
    .ok (.vcons v vs)

/-- One evaluation layer: literals are values, keys resolve through the
graph (a key absent from the graph is data and evaluates to itself), lists
evaluate elementwise, application nodes evaluate their arguments and then
apply the callable. -/
def evalStep (l : Nat → Option DTask) (rec : DTask → Except DErr DVal) :
    DTask → Except DErr DVal
  | .lit n => .ok (.vi n)
  | .key c =>
    match l c with
    | some t => rec t
    | none => .ok (.vi c)
  | .tlist ts => do
    let vs ← evalList rec ts
    .ok (.vlist vs)
  | .app f ts => do
    let vs ← evalList rec ts
    applyFn f vs

/-- Depth-bounded recursive evaluation; exhausting the recursion budget is
the Cycle-Or-Too-Deep failure. -/
def evalT (l : Nat → Option DTask) : Nat → DTask → Except DErr DVal
  | 0, _ => .error .cycleOrTooDeep
  | fuel + 1, t => evalStep l (evalT l fuel) t

/-- Platform-safe recursion depth of the modelled runtime: deep enough for
the 10,000-link chain the test suite exercises, finite so that a cycle is
an explicit runtime failure rather than divergence. -/
def pyStackBound : Nat := 65536

/-- Embedding of `get(graph, key)` on a single key: bounded recursive
resolution against the graph. -/
def dget (l : Nat → Option DTask) (k : Nat) : Except DErr DVal :=
  evalT l pyStackBound (.key k)

/-- Evaluation relation with an unconstrained recursion budget (the ideal
semantics of `get`, independent of the platform stack bound). -/
def GetK (l : Nat → Option DTask) (k : Nat) (v : DVal) : Prop :=
  ∃ fuel, evalT l fuel (.key k) = .ok v

mutual
/-- Occurrences of key `c` in a task (as in `get_dependencies`, recursing
into nested application nodes and nested lists, counted with multiplicity). -/
def occT (c : Nat) : DTask → Nat
  | .lit _ => 0
  | .key k => if k = c then 1 else 0
  | .tlist ts => occL c ts
  | .app _ ts => occL c ts
/-- Occurrences of key `c` in a task sequence. -/
def occL (c : Nat) : DTList → Nat
  | .tnil => 0
  | .tcons t ts => occT c t + occL c ts
end

mutual
/-- Occurrences of in-graph keys in a task, counted with multiplicity (the
length of the dependency list `get_dependencies(dsk, parent, as_list=True)`). -/
def digT (ks : List Nat) : DTask → Nat
  | .lit _ => 0
  | .key k => if ks.contains k then 1 else 0
  | .tlist ts => digL ks ts
  | .app _ ts => digL ks ts
/-- Occurrences of in-graph keys in a task sequence. -/
def digL (ks : List Nat) : DTList → Nat
  | .tnil => 0
  | .tcons t ts => digT ks t + digL ks ts
end

/-- Total number of occurrences of key `c` across all graph tasks. -/
def globalOcc (g : DGraph) (c : Nat) : Nat :=
  (g.map (fun p => occT c p.2)).sum

/-- Distinct keys whose task references `c` (the dependents of `c`). -/
def dependents (g : DGraph) (c : Nat) : List Nat :=
  (gkeys g).filter (fun p => occT c (taskOf g p) != 0)

/-- Fusability of a key `c` per the `fuse` chain construction: `c` is a
graph key, it occurs exactly once across all graph tasks, and the one task
referencing it references exactly one in-graph key occurrence in total (so
its parent link is strictly linear). -/
def fusableB (g : DGraph) (c : Nat) : Bool :=
  (glookup g c).isSome && (globalOcc g c == 1) &&
    g.any (fun p => (occT c p.2 != 0) && (digT (gkeys g) p.2 == 1))

/-- The list of fusable keys. -/
def fuseKeys (g : DGraph) : List Nat :=
  (gkeys g).filter (fusableB g)

mutual
/-- Transitive inlining of fusable keys into a task: a reference to a
fusable key still in the budget `rem` is replaced by the (recursively
expanded) task stored at that key.  The budget, initially all fusable keys,
prevents divergence on degenerate cyclic chains (which are unreachable from
surviving keys). -/
def expandT (g : DGraph) : List Nat → DTask → DTask
  | _, .lit n => .lit n
  | rem, .key c =>
    if h : rem.contains c ∧ fusableB g c then
      expandT g (rem.erase c) (taskOf g c)
    else .key c
  | rem, .tlist ts => .tlist (expandL g rem ts)
  | rem, .app f ts => .app f (expandL g rem ts)
termination_by rem t => (rem.length, sizeOf t)
decreasing_by
  · simp only [Prod.lex_iff]
    left
    have hc : c ∈ rem := by simpa using h.1
    rw [List.length_erase_of_mem hc]
    exact Nat.sub_lt (List.length_pos.2 (by rintro rfl; simp at hc)) Nat.one_pos
  · simp only [Prod.lex_iff]; right; simp_all <;> omega
  · simp only [Prod.lex_iff]; right; simp_all <;> omega
/-- Transitive inlining over a task sequence. -/
def expandL (g : DGraph) : List Nat → DTList → DTList
  | _, .tnil => .tnil
  | rem, .tcons t ts => .tcons (expandT g rem t) (expandL g rem ts)
termination_by rem ts => (rem.length, sizeOf ts)
decreasing_by
  · simp only [Prod.lex_iff]; right; simp_all <;> omega
  · simp only [Prod.lex_iff]; right; simp_all <;> omega
end

/-- Rebuilding the surviving entries of a graph being fused. -/
def fuseAux (g : DGraph) : DGraph → DGraph
  | [] => []
  | p :: rest =>
    if fusableB g p.1 then fuseAux g rest
    else (p.1, expandT g (fuseKeys g) p.2) :: fuseAux g rest

/-- Embedding of `fuse(graph)`: drop every fusable key and inline the
eliminated chains into the tasks of the surviving keys. -/
def fuse (g : DGraph) : DGraph := fuseAux g g

/-- The 10,000-link linear chain of `test_get_stack_limit`:
`x0 = 0`, `x(i+1) = (inc, x(i))`, keys rendered as numbers. -/
def chainG : Nat → Option DTask := fun k =>
  if k = 0 then some (.lit 0)
  else if k ≤ 10000 then some (.app .finc (.tcons (.key (k - 1)) .tnil))
  else none

/-- The same chain after `d['x5000'] = (inc, 'x5001')` introduces a cycle. -/
def cycleG : Nat → Option DTask := fun k =>
  if k = 5000 then some (.app .finc (.tcons (.key 5001) .tnil))
  else chainG k

/-- Concrete graph for exercising the fusion theorem: key 0 holds a literal
and has two dependents, keys 1 and 2. -/
def c4WitnessGraph : DGraph :=
  [(0, .lit 5),
   (1, .app .finc (.tcons (.key 0) .tnil)),
   (2, .app .finc (.tcons (.key 0) .tnil))]

/-- Invariant threaded through the fusion simulation, for a task `t` being
expanded under budget `rem`: (budget soundness) every fusable key already
spent no longer occurs in `t`; (spent-budget disjointness) a spent fusable
key occurs in the task of no fusable key still in the budget; (occurrence
transfer) some graph key that is not a spendable fusable key has a task
carrying every key occurrence of `t`. -/
def InvR (g : DGraph) (rem : List Nat) (t : DTask) : Prop :=
  (∀ c, fusableB g c = true → c ∉ rem → occT c t = 0) ∧
  (∀ c c2, fusableB g c = true → c ∉ rem → fusableB g c2 = true → c2 ∈ rem →
    occT c (taskOf g c2) = 0) ∧
  (∃ p, p ∈ gkeys g ∧ (fusableB g p = false ∨ p ∉ rem) ∧
    (∀ c, occT c t ≠ 0 → occT c (taskOf g p) ≠ 0))

/-- The simulation invariant for a task sequence. -/
def InvRL (g : DGraph) (rem : List Nat) (ts : DTList) : Prop :=
  (∀ c, fusableB g c = true → c ∉ rem → occL c ts = 0) ∧
  (∀ c c2, fusableB g c = true → c ∉ rem → fusableB g c2 = true → c2 ∈ rem →
    occT c (taskOf g c2) = 0) ∧
  (∃ p, p ∈ gkeys g ∧ (fusableB g p = false ∨ p ∉ rem) ∧
    (∀ c, occL c ts ≠ 0 → occT c (taskOf g p) ≠ 0))

/-! ## Theorems: HDF5 and hierarchical-table backends -/

/-- Claim C3.  `convert` from an HDF5 dataset to an in-memory array: the
guard fires for every dataset above `1e9` elements regardless of the
`force` flag — the flag is accepted but never read, so `force=True` does
not force the load as the claim (and the error message of the code itself)
promises; moreover the raising branch computes `("..." % size) / 1e9` and
so raises `TypeError` instead of the intended `MemoryError`.  Datasets of
at most `1e9` elements are returned in full. -/
theorem h5py_to_numpy_ignores_force :
    h5py_to_numpy ⟨[2000000000], []⟩ true = .error .typeError ∧
    h5py_to_numpy ⟨[5], [1, 2, 3, 4, 5]⟩ false = .ok [1, 2, 3, 4, 5] ∧
    h5py_to_numpy ⟨[5], [1, 2, 3, 4, 5]⟩ true = .ok [1, 2, 3, 4, 5] ∧
    h5py_to_numpy ⟨[1000000000], []⟩ false = .ok [] :=
  ⟨rfl, rfl, rfl, rfl⟩

/-- Claim C8, counterexample: an incoming array can have zero elements
without being a no-op, because the code guards on `sum(x.shape)`, not on
emptiness.  For a `(0, 3)`-shaped empty array appended to a `(2, 3)`
dataset the guard falls through and the tail assignment fails. -/
theorem append_h5py_zero_element_not_noop :
    ¬ (∀ dset x : NDArr, x.size = 0 → append_h5py dset x = some dset) := by
  intro h
  have h2 := h ⟨[2, 3], [1, 2, 3, 4, 5, 6]⟩ ⟨[0, 3], []⟩ rfl
  rw [show append_h5py ⟨[2, 3], [1, 2, 3, 4, 5, 6]⟩ ⟨[0, 3], []⟩ = none from rfl] at h2
  cases h2

/-- Claim C8 as amended: `append` is a no-op exactly when the sum of the
incoming shape is zero; for an incoming array with at least one row and
trailing dimensions matching the dataset, the leading dimension grows by
the row count and the new data is written at the tail. -/
theorem append_h5py_amended :
    (∀ dset x : NDArr, x.shape.sum = 0 → append_h5py dset x = some dset) ∧
    (∀ (dset x : NDArr) (n dn : Nat) (tl : List Nat),
      dset.shape = dn :: tl → x.shape = (n + 1) :: tl →
      dset.data.length = dn * tl.prod →
      append_h5py dset x = some ⟨(dn + (n + 1)) :: tl, dset.data ++ x.data⟩) := by
  constructor
  · intro dset x h
    simp [append_h5py, h]
  · intro dset x n dn tl hd hx hlen
    have htake : (dset.data ++ List.replicate ((n + 1) * tl.prod) 0).take (dn * tl.prod)
        = dset.data := by
      rw [← hlen]
      exact List.take_left _ _
    simp only [append_h5py, hx, hd, List.sum_cons, List.headD_cons, List.tail_cons]
    rw [if_neg (by omega : ¬ (n + 1 + tl.sum = 0))]
    rw [if_neg (Nat.succ_ne_zero n)]
    have h1 : dn + (n + 1) - (n + 1) = dn := by omega
    rw [h1]
    have h2 : dn + (n + 1) - dn = n + 1 := by omega
    rw [h2, if_pos rfl, htake]

/-- Witness for the amended C8 statement at a concrete dataset. -/
theorem append_h5py_amended_witness :
    append_h5py ⟨[1, 2], [7, 8]⟩ ⟨[2, 2], [1, 2, 3, 4]⟩
      = some ⟨[3, 2], [7, 8, 1, 2, 3, 4]⟩ := by
  have h := append_h5py_amended.2 ⟨[1, 2], [7, 8]⟩ ⟨[2, 2], [1, 2, 3, 4]⟩ 1 1 [2]
    rfl rfl rfl
  simpa using h

/-- Claim C1.  The chunked-sequence value built by the h5py conversion wraps
an already-created generator: its first iteration yields the dataset
slices, a second independent iteration yields nothing, contradicting the
restartability invariant.  The hdfstore conversion wraps a zero-argument
factory and is restartable: the second iteration repeats the first. -/
theorem chunked_conversion_restartability :
    (h5py_to_numpy_chunks ⟨[3], [1, 2, 3]⟩ 2).iterFirst = [⟨[2], [1, 2]⟩, ⟨[1], [3]⟩] ∧
    (h5py_to_numpy_chunks ⟨[3], [1, 2, 3]⟩ 2).iterSecond = [] ∧
    (∀ (rows : List (List Int)) (cs : Nat),
      (hdfstore_to_dataframe_chunks rows cs).iterSecond
        = (hdfstore_to_dataframe_chunks rows cs).iterFirst) :=
  ⟨rfl, rfl, fun _ _ => rfl⟩

/-- Claim C2.  The indexing-suspension scope disables autoindexing on entry
and, on a clean exit, re-enables it and runs the manual reindex; but when a
chunk append raises, the missing `try/finally` in `ensure_indexing` means
the post-`yield` statements are skipped: the error propagates with
autoindexing still disabled and no reindex performed. -/
theorem ensure_indexing_not_restored_on_error :
    append_chunks_to_hdfstore ⟨true, false, [[1]]⟩ [some [[2]], some [[3]]]
      = (none, ⟨true, true, [[1], [2], [3]]⟩) ∧
    append_chunks_to_hdfstore ⟨true, false, [[1]]⟩ [some [[2]], none]
      = (some .appendError, ⟨false, false, [[1], [2]]⟩) :=
  ⟨rfl, rfl⟩

/-- Claim C6.  Calling cleanup twice: the h5py file cleanup and the
hdfstore cleanup wrap their close in `try/except` and never raise on the
second call, but `cleanup_dataset` reads `dset.file` with no handler, and
once the owning file is closed that attribute read raises. -/
theorem cleanup_double_call :
    (cleanup_file ⟨false⟩ = .ok ⟨true⟩ ∧ cleanup_file ⟨true⟩ = .ok ⟨true⟩) ∧
    (cleanup_hdfstore false = .ok true ∧ cleanup_hdfstore true = .ok true) ∧
    (cleanup_dataset ⟨false⟩ = .ok ⟨true⟩ ∧
      cleanup_dataset ⟨true⟩ = .error .invalidId) :=
  ⟨⟨rfl, rfl⟩, ⟨rfl, rfl⟩, ⟨rfl, rfl⟩⟩

/-! ## Theorems: S3 backend -/

/-- Claim C9.  `convert(S3(CSV), CSV)` with a bucket name uploads the local
bytes under the base name of the file with content type `text/csv`, but the
final `return S3(CSV('s3://...'), s3=s3)` misuses the one-argument memoized
type constructor and raises `TypeError` after the upload instead of
returning the new `S3(CSV)` instance; with no bucket name it fails before
any side effect. -/
theorem convert_csv_to_s3_raises_after_upload :
    convert_csv_to_s3 ⟨["tmp", "data.csv"], [10, 20]⟩ (some "bkt") ⟨[], []⟩
      = (.error .typeError, ⟨["bkt"], [⟨"bkt", "data.csv", "text/csv", [10, 20]⟩]⟩) ∧
    convert_csv_to_s3 ⟨["tmp", "data.csv"], [10, 20]⟩ none ⟨[], []⟩
      = (.error .assertionError, ⟨[], []⟩) :=
  ⟨rfl, rfl⟩

/-- Claim C10.  When neither credential resolves from arguments,
configuration file or environment, the connection is opened anonymously iff
the `anon` argument is `False` (the code computes `not anon and ...`);
passing `anon=True` never opens anonymously; and the memoized entry point
returns the identical cached connection for a repeated argument triple. -/
theorem get_s3_connection_spec
    (w : AwsWorld) (m : ConnMemo) (a : ConnArgs)
    (hck : w.cfgKey = none) (hcs : w.cfgSecret = none)
    (hek : w.envKey = none) (hes : w.envSecret = none)
    (hak : a.key = none) (hsec : a.secret = none) :
    ((get_s3_connection_body w a m.counter).anon = true ↔ a.anon = false) ∧
    (∀ (w2 : AwsWorld) (a2 : ConnArgs) (fresh : Nat), a2.anon = true →
      (get_s3_connection_body w2 a2 fresh).anon = false) ∧
    (∀ (w2 : AwsWorld) (m2 : ConnMemo) (a2 : ConnArgs),
      (get_s3_connection w2 (get_s3_connection w2 m2 a2).2 a2).1
        = (get_s3_connection w2 m2 a2).1) := by
  refine ⟨?_, ?_, ?_⟩
  · simp [get_s3_connection_body, resolveCred, hck, hcs, hek, hes, hak, hsec]
  · intro w2 a2 fresh ha
    simp [get_s3_connection_body, ha]
  · intro w2 m2 a2
    cases hfind : m2.cache.find? (fun p => decide (p.1 = a2)) with
    | some p => simp [get_s3_connection, hfind]
    | none => simp [get_s3_connection, hfind, List.find?]

/-- Witness for C10 at a fully concrete world, cache and argument triple. -/
theorem get_s3_connection_spec_witness :
    (get_s3_connection_body ⟨none, none, none, none⟩ ⟨none, none, false⟩ 0).anon = true :=
  ((get_s3_connection_spec ⟨none, none, none, none⟩ ⟨[], 0⟩ ⟨none, none, false⟩
    rfl rfl rfl rfl rfl rfl).1).mpr rfl

/-- Soundness of the backwards index search: a hit satisfies the predicate
and lies below the bound. -/
theorem lastSat_eq_some {p : Nat → Bool} :
    ∀ {n i : Nat}, lastSat p n = some i → p i = true ∧ i < n := by
  intro n
  induction n with
  | zero => intro i h; cases h
  | succ n ih =>
    intro i h
    rw [lastSat] at h
    by_cases hp : p n
    · rw [if_pos hp] at h
      cases h
      exact ⟨hp, Nat.lt_succ_self n⟩
    · rw [if_neg hp] at h
      obtain ⟨h1, h2⟩ := ih h
      exact ⟨h1, h2.trans (Nat.lt_succ_self n)⟩

/-- Completeness of the backwards index search: a miss means no index below
the bound satisfies the predicate. -/
theorem lastSat_eq_none {p : Nat → Bool} :
    ∀ {n : Nat}, lastSat p n = none → ∀ i, i < n → p i = false := by
  intro n
  induction n with
  | zero => intro _ i hi; omega
  | succ n ih =>
    intro h i hi
    rw [lastSat] at h
    by_cases hp : p n
    · rw [if_pos hp] at h; cases h
    · rw [if_neg hp] at h
      rcases Nat.lt_succ_iff_lt_or_eq.mp hi with h2 | h2
      · exact ih h i h2
      · subst h2; exact Bool.of_not_eq_true hp

/-- Claim C7, counterexample: a remote object larger than the sample length
whose retrieved head contains no line terminator at all makes both `rindex`
calls fail, so `sample` raises `ValueError` instead of yielding a
whole-line prefix. -/
theorem sample_s3_csv_counterexample : ¬ SampleClaim := by
  intro h
  obtain ⟨out, h1, -⟩ := h [97, 97, 97, 97, 97, 97] 4 (by decide)
  rw [show sample_s3_csv [97, 97, 97, 97, 97, 97] 4 = none from rfl] at h1
  cases h1

/-- Claim C7 as amended: for every remote object larger than the requested
sample length whose retrieved head (the inclusive byte range, `length + 1`
bytes) contains a linefeed, `sample` yields bytes that are a prefix of the
object consisting only of whole lines — the cut sits at a CRLF, or at a
bare LF when no CRLF occurs — and the result is within the requested byte
budget. -/
theorem sample_s3_csv_whole_lines (obj : List Nat) (length : Nat)
    (hbig : length < obj.length) (hlf : 10 ∈ obj.take (length + 1)) :
    ∃ out, sample_s3_csv obj length = some out ∧
      (∃ rest, out ++ rest = obj) ∧ out.length ≤ length ∧
      (∃ i, out = (obj.take (length + 1)).take i ∧
        (((obj.take (length + 1))[i]? = some 13 ∧
            (obj.take (length + 1))[i + 1]? = some 10) ∨
          (obj.take (length + 1))[i]? = some 10)) := by
  set raw := obj.take (length + 1) with hraw
  have hrawlen : raw.length ≤ length + 1 := by
    rw [hraw]; simpa using List.length_take_le (length + 1) obj
  have mkrest : ∀ i, ∃ rest, raw.take i ++ rest = obj := by
    intro i
    refine ⟨raw.drop i ++ obj.drop (length + 1), ?_⟩
    rw [← List.append_assoc, List.take_append_drop, hraw, List.take_append_drop]
  have mklen : ∀ i, i < raw.length → (raw.take i).length ≤ length := by
    intro i hi
    rw [List.length_take]
    omega
  cases h13 : lastSat
      (fun i => decide (raw[i]? = some 13) && decide (raw[i + 1]? = some 10))
      raw.length with
  | some i =>
    obtain ⟨hp, hi⟩ := lastSat_eq_some h13
    rw [Bool.and_eq_true, decide_eq_true_iff, decide_eq_true_iff] at hp
    refine ⟨raw.take i, ?_, mkrest i, mklen i hi, ⟨i, rfl, .inl hp⟩⟩
    rw [sample_s3_csv]
    rw [← hraw, h13]
  | none =>
    cases h10 : lastSat (fun i => decide (raw[i]? = some 10)) raw.length with
    | none =>
      exfalso
      obtain ⟨i, hilt, hig⟩ := List.getElem_of_mem hlf
      have := lastSat_eq_none h10 i hilt
      rw [decide_eq_false_iff_not] at this
      exact this (by simp [List.getElem?_eq_getElem hilt, hig])
    | some i =>
      obtain ⟨hp, hi⟩ := lastSat_eq_some h10
      rw [decide_eq_true_iff] at hp
      refine ⟨raw.take i, ?_, mkrest i, mklen i hi, ⟨i, rfl, .inr hp⟩⟩
      rw [sample_s3_csv]
      rw [← hraw, h13, h10]

/-- Witness for the amended C7 statement at a concrete object and length. -/
theorem sample_s3_csv_whole_lines_witness :
    ∃ out, sample_s3_csv [97, 13, 10, 98, 99, 10, 100, 101, 102, 103] 6 = some out ∧
      (∃ rest, out ++ rest = [97, 13, 10, 98, 99, 10, 100, 101, 102, 103]) ∧
      out.length ≤ 6 ∧
      (∃ i, out = (([97, 13, 10, 98, 99, 10, 100, 101, 102, 103] : List Nat).take 7).take i ∧
        (((([97, 13, 10, 98, 99, 10, 100, 101, 102, 103] : List Nat).take 7)[i]? = some 13 ∧
            (([97, 13, 10, 98, 99, 10, 100, 101, 102, 103] : List Nat).take 7)[i + 1]? = some 10) ∨
          (([97, 13, 10, 98, 99, 10, 100, 101, 102, 103] : List Nat).take 7)[i]? = some 10)) :=
  sample_s3_csv_whole_lines [97, 13, 10, 98, 99, 10, 100, 101, 102, 103] 6
    (by decide) (by decide)

/-! ## Theorems: task-graph core, evaluation (claim C5) -/

/-- Bind on a successful Except computation. -/
theorem except_bind_ok {α β γ : Type} (a : α) (f : α → Except γ β) :
    (Except.ok a >>= f) = f a := rfl

/-- Bind on a failed Except computation. -/
theorem except_bind_error {α β γ : Type} (e : γ) (f : α → Except γ β) :
    ((Except.error e : Except γ α) >>= f) = Except.error e := rfl

/-- Evaluating one link of the sound chain: each `x(k)` resolves to `k`
once the budget covers the chain depth below it. -/
theorem chainG_eval : ∀ k, k ≤ 10000 → ∀ f, 2 * k + 2 ≤ f →
    evalT chainG f (.key k) = .ok (.vi k) := by
  intro k
  induction k with
  | zero =>
    intro _ f hf
    obtain ⟨f2, rfl⟩ : ∃ f2, f = f2 + 2 := ⟨f - 2, by omega⟩
    simp [evalT, evalStep, chainG]
  | succ k ih =>
    intro hk f hf
    obtain ⟨f2, rfl⟩ : ∃ f2, f = f2 + 2 := ⟨f - 2, by omega⟩
    have hc : chainG (k + 1) = some (.app .finc (.tcons (.key k) .tnil)) := by
      rw [chainG]
      rw [if_neg (Nat.succ_ne_zero k), if_pos hk, Nat.add_sub_cancel]
    have ihh := ih (by omega) f2 (by omega)
    simp only [evalT, evalStep, hc, evalList, ihh, except_bind_ok, applyFn]
    push_cast
    ring_nf

/-- Both members of the introduced cycle fail with the explicit
Cycle-Or-Too-Deep error at every recursion budget. -/
theorem cycleG_pair : ∀ f,
    evalT cycleG f (.key 5000) = .error .cycleOrTooDeep ∧
    evalT cycleG f (.key 5001) = .error .cycleOrTooDeep := by
  intro f
  induction f using Nat.strong_induction_on with
  | _ f ih =>
    have h5000 : cycleG 5000 = some (.app .finc (.tcons (.key 5001) .tnil)) := by
      rw [cycleG]; norm_num
    have h5001 : cycleG 5001 = some (.app .finc (.tcons (.key 5000) .tnil)) := by
      rw [cycleG, chainG]; norm_num
    constructor
    · match f with
      | 0 => rfl
      | 1 => simp [evalT, evalStep, h5000]
      | f2 + 2 =>
        have ihh := (ih f2 (by omega)).2
        simp only [evalT, evalStep, h5000, evalList, ihh, except_bind_error]
    · match f with
      | 0 => rfl
      | 1 => simp [evalT, evalStep, h5001]
      | f2 + 2 =>
        have ihh := (ih f2 (by omega)).1
        simp only [evalT, evalStep, h5001, evalList, ihh, except_bind_error]

/-- Every node downstream of the cycle fails with Cycle-Or-Too-Deep at
every recursion budget. -/
theorem cycleG_downstream : ∀ k, 5000 ≤ k → k ≤ 10000 → ∀ f,
    evalT cycleG f (.key k) = .error .cycleOrTooDeep := by
  intro k hk
  induction k, hk using Nat.le_induction with
  | base => intro _ f; exact (cycleG_pair f).1
  | succ k hk ih =>
    intro hk2 f
    have hc : cycleG (k + 1) = some (.app .finc (.tcons (.key k) .tnil)) := by
      rw [cycleG, chainG]
      rw [if_neg (by omega : ¬ k + 1 = 5000), if_neg (Nat.succ_ne_zero k),
        if_pos hk2, Nat.add_sub_cancel]
    match f with
    | 0 => rfl
    | 1 => simp [evalT, evalStep, hc]
    | f2 + 2 =>
      have ihh := ih (by omega) f2
      simp only [evalT, evalStep, hc, evalList, ihh, except_bind_error]

/-- Nodes upstream of the cycle still evaluate to their chain value. -/
theorem cycleG_upstream : ∀ k, k ≤ 4999 → ∀ f, 2 * k + 2 ≤ f →
    evalT cycleG f (.key k) = .ok (.vi k) := by
  intro k
  induction k with
  | zero =>
    intro _ f hf
    obtain ⟨f2, rfl⟩ : ∃ f2, f = f2 + 2 := ⟨f - 2, by omega⟩
    simp [evalT, evalStep, cycleG, chainG]
  | succ k ih =>
    intro hk f hf
    obtain ⟨f2, rfl⟩ : ∃ f2, f = f2 + 2 := ⟨f - 2, by omega⟩
    have hc : cycleG (k + 1) = some (.app .finc (.tcons (.key k) .tnil)) := by
      rw [cycleG, chainG]
      rw [if_neg (by omega : ¬ k + 1 = 5000), if_neg (Nat.succ_ne_zero k),
        if_pos (by omega : k + 1 ≤ 10000), Nat.add_sub_cancel]
    have ihh := ih (by omega) f2 (by omega)
    simp only [evalT, evalStep, hc, evalList, ihh, except_bind_ok, applyFn]
    push_cast
    ring_nf

/-- Claim C5.  The 10,000-link linear chain evaluates end to end
(`get(d, 'x10000') == 10000`); after introducing a cycle at `x5000`, every
downstream node fails with the explicit Cycle-Or-Too-Deep runtime error at
the platform recursion bound rather than crashing or returning a wrong
answer, while the unaffected upstream node `x4999` still evaluates to
4999. -/
theorem dask_get_stack_limit :
    dget chainG 10000 = .ok (.vi 10000) ∧
    (∀ k, 5000 ≤ k → k ≤ 10000 → dget cycleG k = .error .cycleOrTooDeep) ∧
    dget cycleG 4999 = .ok (.vi 4999) := by
  refine ⟨?_, ?_, ?_⟩
  · have h := chainG_eval 10000 (by omega) pyStackBound (by norm_num [pyStackBound])
    simpa using h
  · intro k h1 h2
    exact cycleG_downstream k h1 h2 pyStackBound
  · have h := cycleG_upstream 4999 (by omega) pyStackBound (by norm_num [pyStackBound])
    simpa using h

/-- Witness for C5 at a concrete downstream node. -/
theorem dask_get_stack_limit_witness :
    dget cycleG 6000 = .error .cycleOrTooDeep :=
  dask_get_stack_limit.2.1 6000 (by norm_num) (by norm_num)

/-! ## Theorems: task-graph core, fusion (claim C4) -/

/-- Lookup on the empty graph. -/
theorem glookup_nil (k : Nat) : glookup [] k = none := rfl

/-- Lookup on a nonempty graph. -/
theorem glookup_cons (p : Nat × DTask) (g : DGraph) (k : Nat) :
    glookup (p :: g) k = if p.1 = k then some p.2 else glookup g k := by
  unfold glookup
  by_cases h : p.1 = k
  · rw [List.find?_cons_of_pos _ (by simp [h]), if_pos h]
  · rw [List.find?_cons_of_neg _ (by simp [h]), if_neg h]

/-- A key is in the graph iff its lookup succeeds. -/
theorem mem_gkeys_iff (g : DGraph) (k : Nat) :
    k ∈ gkeys g ↔ ∃ t, glookup g k = some t := by
  induction g with
  | nil => simp [gkeys, glookup_nil]
  | cons p rest ih =>
    simp only [gkeys, List.map_cons, List.mem_cons, glookup_cons]
    by_cases h : p.1 = k
    · simp [h]
    · simp only [if_neg h]
      rw [← ih]
      simp [gkeys, Ne.symm h]

/-- A successful lookup is a graph entry. -/
theorem glookup_mem {g : DGraph} {k : Nat} {t : DTask}
    (h : glookup g k = some t) : (k, t) ∈ g := by
  unfold glookup at h
  cases hf : g.find? (fun q => q.1 == k) with
  | none => rw [hf] at h; cases h
  | some q =>
    rw [hf] at h
    cases h
    have hm := List.mem_of_find?_eq_some hf
    have hp : q.1 = k := by simpa using List.find?_some hf
    cases q with
    | mk a b =>
      simp only at hp
      subst hp
      exact hm

/-- The stored task of a key with a successful lookup. -/
theorem taskOf_eq {g : DGraph} {k : Nat} {t : DTask}
    (h : glookup g k = some t) : taskOf g k = t := by
  simp [taskOf, h]

/-- A fusable key has a stored task. -/
theorem fus_lookup_isSome {g : DGraph} {c : Nat}
    (h : fusableB g c = true) : ∃ t, glookup g c = some t := by
  simp only [fusableB, Bool.and_eq_true] at h
  exact Option.isSome_iff_exists.mp h.1.1

/-- A fusable key is a graph key. -/
theorem fus_mem {g : DGraph} {c : Nat} (h : fusableB g c = true) :
    c ∈ gkeys g :=
  (mem_gkeys_iff g c).2 (fus_lookup_isSome h)

/-- A fusable key occurs exactly once across all graph tasks. -/
theorem fus_globalOcc {g : DGraph} {c : Nat} (h : fusableB g c = true) :
    globalOcc g c = 1 := by
  simp only [fusableB, Bool.and_eq_true, beq_iff_eq] at h
  exact h.1.2

/-- A fusable key is in the fusable-key list. -/
theorem fus_mem_fuseKeys {g : DGraph} {c : Nat} (h : fusableB g c = true) :
    c ∈ fuseKeys g :=
  List.mem_filter.2 ⟨fus_mem h, h⟩

/-- Expansion of a literal. -/
theorem expandT_lit (g : DGraph) (rem : List Nat) (n : Int) :
    expandT g rem (.lit n) = .lit n := by
  simp [expandT]

/-- Expansion of a fusable key reference still in the budget. -/
theorem expandT_key_pos {g : DGraph} {rem : List Nat} {c : Nat}
    (h1 : c ∈ rem) (h2 : fusableB g c = true) :
    expandT g rem (.key c) = expandT g (rem.erase c) (taskOf g c) := by
  rw [expandT]
  rw [dif_pos ⟨by simpa using h1, h2⟩]

/-- Expansion of a key reference that is not a budgeted fusable key. -/
theorem expandT_key_neg {g : DGraph} {rem : List Nat} {c : Nat}
    (h : ¬ (c ∈ rem ∧ fusableB g c = true)) :
    expandT g rem (.key c) = .key c := by
  rw [expandT]
  rw [dif_neg (by simpa using h)]

/-- Expansion of a list task. -/
theorem expandT_tlist (g : DGraph) (rem : List Nat) (ts : DTList) :
    expandT g rem (.tlist ts) = .tlist (expandL g rem ts) := by
  simp [expandT]

/-- Expansion of an application node. -/
theorem expandT_app (g : DGraph) (rem : List Nat) (fn : Fn) (ts : DTList) :
    expandT g rem (.app fn ts) = .app fn (expandL g rem ts) := by
  simp [expandT]

/-- Expansion of the empty sequence. -/
theorem expandL_tnil (g : DGraph) (rem : List Nat) :
    expandL g rem .tnil = .tnil := by
  simp [expandL]

/-- Expansion of a nonempty sequence. -/
theorem expandL_tcons (g : DGraph) (rem : List Nat) (t : DTask) (ts : DTList) :
    expandL g rem (.tcons t ts) = .tcons (expandT g rem t) (expandL g rem ts) := by
  simp [expandL]

/-- Lookup in the rebuilt graph: fusable keys are gone, surviving keys carry
their expanded task. -/
theorem fuseAux_lookup (g : DGraph) (c : Nat) : ∀ l : DGraph,
    glookup (fuseAux g l) c =
      if fusableB g c = true then none
      else (glookup l c).map (fun t => expandT g (fuseKeys g) t) := by
  intro l
  induction l with
  | nil =>
    rw [fuseAux]
    by_cases h : fusableB g c <;> simp [h, glookup_nil]
  | cons p rest ih =>
    rw [fuseAux]
    by_cases hf : fusableB g p.1
    · rw [if_pos hf, ih]
      by_cases hc : p.1 = c
      · subst hc
        rw [if_pos hf, if_pos hf]
      · rw [glookup_cons, if_neg hc]
    · rw [if_neg hf, glookup_cons]
      by_cases hc : p.1 = c
      · subst hc
        simp [glookup_cons, hf]
      · rw [if_neg hc, ih, glookup_cons, if_neg hc]

/-- Lookup after fusion. -/
theorem fuse_lookup (g : DGraph) (c : Nat) :
    glookup (fuse g) c =
      if fusableB g c = true then none
      else (glookup g c).map (fun t => expandT g (fuseKeys g) t) :=
  fuseAux_lookup g c g

/-- Keys of the fused graph: the non-fusable original keys. -/
theorem gkeys_fuse (g : DGraph) (c : Nat) :
    c ∈ gkeys (fuse g) ↔ c ∈ gkeys g ∧ fusableB g c = false := by
  constructor
  · intro h
    obtain ⟨t, ht⟩ := (mem_gkeys_iff _ c).1 h
    rw [fuse_lookup] at ht
    by_cases hf : fusableB g c
    · rw [if_pos hf] at ht; cases ht
    · rw [if_neg hf] at ht
      obtain ⟨t0, ht0, -⟩ := Option.map_eq_some'.1 ht
      exact ⟨(mem_gkeys_iff g c).2 ⟨t0, ht0⟩, by simpa using hf⟩
  · rintro ⟨hm, hf⟩
    obtain ⟨t, ht⟩ := (mem_gkeys_iff g c).1 hm
    refine (mem_gkeys_iff _ c).2 ⟨expandT g (fuseKeys g) t, ?_⟩
    rw [fuse_lookup, if_neg (by simp [hf]), ht]
    rfl

/-- Structural induction principle for task sequences alone. -/
theorem dtlist_ind {motive : DTList → Prop} (h1 : motive .tnil)
    (h2 : ∀ t ts, motive ts → motive (.tcons t ts)) : ∀ ts, motive ts
  | .tnil => h1
  | .tcons t ts => h2 t ts (dtlist_ind h1 h2 ts)

/-- Successful sequence evaluation transfers along a pointwise refinement of
the element evaluator. -/
theorem evalList_ok_of_imp {r1 r2 : DTask → Except DErr DVal}
    (h : ∀ t v, r1 t = .ok v → r2 t = .ok v) :
    ∀ ts vs, evalList r1 ts = .ok vs → evalList r2 ts = .ok vs := by
  intro ts
  induction ts using dtlist_ind with
  | h1 => intro vs h2; exact h2
  | h2 t ts ih =>
    intro vs h2
    rw [evalList] at h2 ⊢
    cases hv : r1 t with
    | error e => rw [hv, except_bind_error] at h2; cases h2
    | ok v =>
      rw [hv, except_bind_ok] at h2
      cases hvs : evalList r1 ts with
      | error e => rw [hvs, except_bind_error] at h2; cases h2
      | ok vs0 =>
        rw [hvs, except_bind_ok] at h2
        rw [h t v hv, except_bind_ok, ih vs0 hvs, except_bind_ok]
        exact h2

/-- Evaluation success is monotone in the recursion budget. -/
theorem evalT_mono {l : Nat → Option DTask} :
    ∀ {f f2 : Nat} {t : DTask} {v : DVal}, f ≤ f2 →
      evalT l f t = .ok v → evalT l f2 t = .ok v := by
  intro f
  induction f with
  | zero =>
    intro f2 t v _ h
    rw [evalT] at h
    cases h
  | succ f ih =>
    intro f2 t v hle h
    obtain ⟨f2p, rfl⟩ : ∃ f2p, f2 = f2p + 1 := ⟨f2 - 1, by omega⟩
    rw [evalT] at h ⊢
    have himp : ∀ t0 v0, evalT l f t0 = .ok v0 → evalT l f2p t0 = .ok v0 :=
      fun t0 v0 => ih (by omega)
    cases t with
    | lit n => exact h
    | key c =>
      rw [evalStep] at h ⊢
      cases hl : l c with
      | none => rw [hl] at h; exact h
      | some t0 => rw [hl] at h; exact himp t0 v h
    | tlist ts =>
      rw [evalStep] at h ⊢
      cases hvs : evalList (evalT l f) ts with
      | error e => rw [hvs, except_bind_error] at h; cases h
      | ok vs =>
        rw [hvs, except_bind_ok] at h
        rw [evalList_ok_of_imp himp ts vs hvs, except_bind_ok]
        exact h
    | app fn ts =>
      rw [evalStep] at h ⊢
      cases hvs : evalList (evalT l f) ts with
      | error e => rw [hvs, except_bind_error] at h; cases h
      | ok vs =>
        rw [hvs, except_bind_ok] at h
        rw [evalList_ok_of_imp himp ts vs hvs, except_bind_ok]
        exact h

/-- Two distinct members of a list each contribute to the mapped sum. -/
theorem two_members_sum {α : Type} (fc : α → Nat) :
    ∀ (l : List α) (a b : α), a ∈ l → b ∈ l → a ≠ b →
      fc a + fc b ≤ (l.map fc).sum := by
  intro l
  induction l with
  | nil => intro a b ha _ _; cases ha
  | cons x xs ih =>
    intro a b ha hb hne
    rw [List.map_cons, List.sum_cons]
    rcases List.mem_cons.1 ha with rfl | ha2
    · have hb2 : b ∈ xs := by
        rcases List.mem_cons.1 hb with rfl | h
        · exact absurd rfl hne
        · exact h
      have := List.single_le_sum (l := xs.map fc) (fun y _ => Nat.zero_le y)
        (fc b) (List.mem_map_of_mem fc hb2)
      omega
    · rcases List.mem_cons.1 hb with rfl | hb2
      · have := List.single_le_sum (l := xs.map fc) (fun y _ => Nat.zero_le y)
          (fc a) (List.mem_map_of_mem fc ha2)
        omega
      · have := ih a b ha2 hb2 hne
        omega

/-- A key occurring in the tasks of two distinct graph keys occurs at least
twice globally. -/
theorem globalOcc_ge_two {g : DGraph} {c p q : Nat} (hpq : p ≠ q)
    (hp : p ∈ gkeys g) (hq : q ∈ gkeys g)
    (hop : occT c (taskOf g p) ≠ 0) (hoq : occT c (taskOf g q) ≠ 0) :
    2 ≤ globalOcc g c := by
  obtain ⟨tp, htp⟩ := (mem_gkeys_iff g p).1 hp
  obtain ⟨tq, htq⟩ := (mem_gkeys_iff g q).1 hq
  have hmp : (p, tp) ∈ g := glookup_mem htp
  have hmq : (q, tq) ∈ g := glookup_mem htq
  have hne : (p, tp) ≠ (q, tq) := by
    intro h
    cases h
    exact hpq rfl
  have hsum := two_members_sum (fun pr => occT c pr.2) g (p, tp) (q, tq) hmp hmq hne
  rw [taskOf_eq htp] at hop
  rw [taskOf_eq htq] at hoq
  simp only at hsum
  unfold globalOcc
  omega

/-- A key occurs once in a reference to itself. -/
theorem occ_key_self (c : Nat) : occT c (.key c) = 1 := by simp [occT]

/-- The invariant passes from a list task to its element sequence. -/
theorem invR_of_tlist {g : DGraph} {rem : List Nat} {ts : DTList}
    (h : InvR g rem (.tlist ts)) : InvRL g rem ts := h

/-- The invariant passes from an application node to its argument
sequence. -/
theorem invR_of_app {g : DGraph} {rem : List Nat} {fn : Fn} {ts : DTList}
    (h : InvR g rem (.app fn ts)) : InvRL g rem ts := h

/-- The invariant on a nonempty sequence splits between head and tail. -/
theorem invRL_cons {g : DGraph} {rem : List Nat} {t : DTask} {ts : DTList}
    (h : InvRL g rem (.tcons t ts)) : InvR g rem t ∧ InvRL g rem ts := by
  obtain ⟨h1, h2, p, hp1, hp2, hp3⟩ := h
  have e : ∀ c, occL c (.tcons t ts) = occT c t + occL c ts := fun _ => rfl
  constructor
  · refine ⟨fun c hc hr => ?_, h2, ⟨p, hp1, hp2, fun c hc => ?_⟩⟩
    · have := h1 c hc hr
      rw [e c] at this
      omega
    · exact hp3 c (by rw [e c]; omega)
  · refine ⟨fun c hc hr => ?_, h2, ⟨p, hp1, hp2, fun c hc => ?_⟩⟩
    · have := h1 c hc hr
      rw [e c] at this
      omega
    · exact hp3 c (by rw [e c]; omega)

/-- The invariant holds under the full fusable budget for the task of any
non-fusable graph key. -/
theorem invR_full {g : DGraph} {c : Nat} (hc : c ∈ gkeys g)
    (hnf : fusableB g c = false) : InvR g (fuseKeys g) (taskOf g c) := by
  refine ⟨?_, ?_, ⟨c, hc, .inl hnf, fun _ h => h⟩⟩
  · intro c2 hf hr
    exact absurd (fus_mem_fuseKeys hf) hr
  · intro c2 c3 hf hr _ _
    exact absurd (fus_mem_fuseKeys hf) hr

/-- Maintenance of the invariant when a budgeted fusable key reference is
expanded: the stored task satisfies the invariant under the reduced
budget. -/
theorem inv_step_key {g : DGraph} {rem : List Nat} {c0 : Nat}
    (hF : fusableB g c0 = true) (hmem : c0 ∈ rem) (hnd : rem.Nodup)
    (hInv : InvR g rem (.key c0)) :
    InvR g (rem.erase c0) (taskOf g c0) := by
  obtain ⟨hA, hB, p, hp1, hp2, hp3⟩ := hInv
  have herase : ∀ x, x ∈ rem.erase c0 ↔ x ≠ c0 ∧ x ∈ rem :=
    fun x => hnd.mem_erase_iff
  have hglob := fus_globalOcc hF
  have hc0mem := fus_mem hF
  have hpnec0 : p ≠ c0 := by
    intro h
    subst h
    rcases hp2 with h2 | h2
    · rw [hF] at h2; cases h2
    · exact h2 hmem
  have hpocc : occT c0 (taskOf g p) ≠ 0 :=
    hp3 c0 (by rw [occ_key_self]; omega)
  refine ⟨?_, ?_, ⟨c0, hc0mem, .inr ?_, fun _ h => h⟩⟩
  · intro c hf hr
    rw [herase c] at hr
    push_neg at hr
    by_cases hcc : c = c0
    · subst hcc
      by_contra hocc
      have := globalOcc_ge_two hpnec0 hp1 hc0mem hpocc hocc
      omega
    · exact hB c c0 hf (hr hcc) hF hmem
  · intro c c2 hf hr hf2 hr2
    obtain ⟨hc2ne, hc2mem⟩ := (herase c2).1 hr2
    by_cases hcc : c = c0
    · subst hcc
      by_contra hocc
      have hpne2 : p ≠ c2 := by
        intro h
        subst h
        rcases hp2 with h2 | h2
        · rw [hf2] at h2; cases h2
        · exact h2 hc2mem
      have := globalOcc_ge_two hpne2 hp1 (fus_mem hf2) hpocc hocc
      omega
    · have hcr : c ∉ rem := by
        intro hmem2
        exact hr ((herase c).2 ⟨hcc, hmem2⟩)
      exact hB c c2 hf hcr hf2 hc2mem
  · rw [herase c0]
    rintro ⟨h, -⟩
    exact h rfl

/-- Forward simulation: an evaluation that succeeds in the original graph
succeeds with the same value in the fused graph on the expanded task,
provided the expansion invariant holds. -/
theorem fuse_fwd (g : DGraph) (hgnd : (gkeys g).Nodup) :
    ∀ f : Nat,
      (∀ rem t v, rem.Nodup → evalT (glookup g) f t = .ok v → InvR g rem t →
        ∃ f2, evalT (glookup (fuse g)) f2 (expandT g rem t) = .ok v) ∧
      (∀ rem ts vs, rem.Nodup → evalList (evalT (glookup g) f) ts = .ok vs →
        InvRL g rem ts →
        ∃ f2, evalList (evalT (glookup (fuse g)) f2) (expandL g rem ts) = .ok vs) := by
  intro f
  induction f with
  | zero =>
    constructor
    · intro rem t v _ hev _
      rw [evalT] at hev
      cases hev
    · intro rem ts vs _ hev _
      induction ts using dtlist_ind with
      | h1 =>
        rw [evalList] at hev
        cases hev
        exact ⟨0, by rw [expandL_tnil]; rfl⟩
      | h2 t ts ih2 =>
        rw [evalList, evalT, except_bind_error] at hev
        cases hev
  | succ fp ih =>
    have taskPart : ∀ rem t v, rem.Nodup → evalT (glookup g) (fp + 1) t = .ok v →
        InvR g rem t →
        ∃ f2, evalT (glookup (fuse g)) f2 (expandT g rem t) = .ok v := by
      intro rem t v hnd hev hInv
      rw [evalT] at hev
      cases t with
      | lit n =>
        rw [evalStep] at hev
        cases hev
        exact ⟨1, by rw [expandT_lit]; rfl⟩
      | key c =>
        rw [evalStep] at hev
        by_cases hf : fusableB g c
        · by_cases hr : c ∈ rem
          · obtain ⟨t0, ht0⟩ := fus_lookup_isSome hf
            rw [ht0] at hev
            have hInv2 := inv_step_key hf hr hnd hInv
            rw [taskOf_eq ht0] at hInv2
            obtain ⟨f2, h2⟩ := ih.1 (rem.erase c) t0 v (hnd.erase c) hev hInv2
            refine ⟨f2, ?_⟩
            rw [expandT_key_pos hr hf, taskOf_eq ht0]
            exact h2
          · exfalso
            have := hInv.1 c hf hr
            rw [occ_key_self] at this
            exact Nat.one_ne_zero this
        · have hcond : ¬ (c ∈ rem ∧ fusableB g c = true) := fun h2 => hf h2.2
          cases hl : glookup g c with
          | none =>
            rw [hl] at hev
            cases hev
            refine ⟨1, ?_⟩
            rw [expandT_key_neg hcond, evalT, evalStep]
            rw [fuse_lookup, if_neg (by simp [hf]), hl]
            rfl
          | some t0 =>
            rw [hl] at hev
            have hcm : c ∈ gkeys g := (mem_gkeys_iff g c).2 ⟨t0, hl⟩
            have hInv2 := invR_full hcm (by simpa using hf)
            rw [taskOf_eq hl] at hInv2
            have hndF : (fuseKeys g).Nodup := hgnd.filter _
            obtain ⟨f2, h2⟩ := ih.1 (fuseKeys g) t0 v hndF hev hInv2
            refine ⟨f2 + 1, ?_⟩
            rw [expandT_key_neg hcond, evalT, evalStep]
            rw [fuse_lookup, if_neg (by simp [hf]), hl]
            exact h2
      | tlist ts =>
        rw [evalStep] at hev
        cases hvs : evalList (evalT (glookup g) fp) ts with
        | error e => rw [hvs, except_bind_error] at hev; cases hev
        | ok vs =>
          rw [hvs, except_bind_ok] at hev
          cases hev
          obtain ⟨f2, h2⟩ := ih.2 rem ts vs hnd hvs (invR_of_tlist hInv)
          refine ⟨f2 + 1, ?_⟩
          rw [expandT_tlist, evalT, evalStep, h2, except_bind_ok]
      | app fn ts =>
        rw [evalStep] at hev
        cases hvs : evalList (evalT (glookup g) fp) ts with
        | error e => rw [hvs, except_bind_error] at hev; cases hev
        | ok vs =>
          rw [hvs, except_bind_ok] at hev
          obtain ⟨f2, h2⟩ := ih.2 rem ts vs hnd hvs (invR_of_app hInv)
          refine ⟨f2 + 1, ?_⟩
          rw [expandT_app, evalT, evalStep, h2, except_bind_ok]
          exact hev
    refine ⟨taskPart, ?_⟩
    intro rem ts
    induction ts using dtlist_ind with
    | h1 =>
      intro vs _ hev _
      rw [evalList] at hev
      cases hev
      exact ⟨0, by rw [expandL_tnil]; rfl⟩
    | h2 t ts ihts =>
      intro vs hnd hev hInv
      obtain ⟨hIt, hIts⟩ := invRL_cons hInv
      rw [evalList] at hev
      cases hv : evalT (glookup g) (fp + 1) t with
      | error e => rw [hv, except_bind_error] at hev; cases hev
      | ok v =>
        rw [hv, except_bind_ok] at hev
        cases hvs : evalList (evalT (glookup g) (fp + 1)) ts with
        | error e => rw [hvs, except_bind_error] at hev; cases hev
        | ok vs0 =>
          rw [hvs, except_bind_ok] at hev
          cases hev
          obtain ⟨fa, ha⟩ := taskPart rem t v hnd hv hIt
          obtain ⟨fb, hb⟩ := ihts vs0 hnd hvs hIts
          have ha2 : evalT (glookup (fuse g)) (max fa fb) (expandT g rem t) = .ok v :=
            evalT_mono (le_max_left _ _) ha
          have hb2 : evalList (evalT (glookup (fuse g)) (max fa fb))
              (expandL g rem ts) = .ok vs0 :=
            evalList_ok_of_imp (fun t0 v0 h0 => evalT_mono (le_max_right fa fb) h0)
              _ _ hb
          refine ⟨max fa fb, ?_⟩
          rw [expandL_tcons, evalList, ha2, except_bind_ok, hb2, except_bind_ok]

/-- Reverse simulation: an evaluation that succeeds in the fused graph on an
expanded task succeeds with the same value in the original graph, provided
the expansion invariant holds. -/
theorem fuse_rev (g : DGraph) (hgnd : (gkeys g).Nodup) :
    ∀ f : Nat,
      (∀ rem t v, rem.Nodup →
        evalT (glookup (fuse g)) f (expandT g rem t) = .ok v → InvR g rem t →
        ∃ f2, evalT (glookup g) f2 t = .ok v) ∧
      (∀ rem ts vs, rem.Nodup →
        evalList (evalT (glookup (fuse g)) f) (expandL g rem ts) = .ok vs →
        InvRL g rem ts →
        ∃ f2, evalList (evalT (glookup g) f2) ts = .ok vs) := by
  intro f
  induction f with
  | zero =>
    constructor
    · intro rem t v _ hev _
      rw [evalT] at hev
      cases hev
    · intro rem ts vs _ hev _
      induction ts using dtlist_ind with
      | h1 =>
        rw [expandL_tnil, evalList] at hev
        cases hev
        exact ⟨0, rfl⟩
      | h2 t ts ih2 =>
        rw [expandL_tcons, evalList, evalT, except_bind_error] at hev
        cases hev
  | succ fp ih =>
    have taskPart : ∀ n rem t v, rem.length = n → rem.Nodup →
        evalT (glookup (fuse g)) (fp + 1) (expandT g rem t) = .ok v → InvR g rem t →
        ∃ f2, evalT (glookup g) f2 t = .ok v := by
      intro n
      induction n using Nat.strong_induction_on with
      | _ n ihn =>
        intro rem t v hlen hnd hev hInv
        cases t with
        | lit m =>
          rw [expandT_lit, evalT, evalStep] at hev
          cases hev
          exact ⟨1, by rw [evalT, evalStep]⟩
        | key c =>
          by_cases hf : fusableB g c
          · by_cases hr : c ∈ rem
            · obtain ⟨t0, ht0⟩ := fus_lookup_isSome hf
              have hev2 : evalT (glookup (fuse g)) (fp + 1)
                  (expandT g (rem.erase c) t0) = .ok v := by
                rw [← taskOf_eq ht0, ← expandT_key_pos hr hf]
                exact hev
              have hInv2 := inv_step_key hf hr hnd hInv
              rw [taskOf_eq ht0] at hInv2
              have hlt : (rem.erase c).length < n := by
                rw [List.length_erase_of_mem hr]
                have hne : rem.length ≠ 0 := by
                  intro h0
                  rw [List.length_eq_zero] at h0
                  subst h0
                  cases hr
                omega
              obtain ⟨f2, h2⟩ := ihn (rem.erase c).length hlt (rem.erase c) t0 v rfl
                (hnd.erase c) hev2 hInv2
              refine ⟨f2 + 1, ?_⟩
              rw [evalT, evalStep, ht0]
              exact h2
            · exfalso
              have := hInv.1 c hf hr
              rw [occ_key_self] at this
              exact Nat.one_ne_zero this
          · have hcond : ¬ (c ∈ rem ∧ fusableB g c = true) := fun h2 => hf h2.2
            rw [expandT_key_neg hcond, evalT, evalStep] at hev
            rw [fuse_lookup, if_neg (by simp [hf])] at hev
            cases hl : glookup g c with
            | none =>
              rw [hl] at hev
              have hev2 : Except.ok (DVal.vi c) = Except.ok v := hev
              cases hev2
              exact ⟨1, by rw [evalT, evalStep, hl]⟩
            | some t0 =>
              rw [hl] at hev
              have hev2 : evalT (glookup (fuse g)) fp
                  (expandT g (fuseKeys g) t0) = .ok v := hev
              have hcm : c ∈ gkeys g := (mem_gkeys_iff g c).2 ⟨t0, hl⟩
              have hInv2 := invR_full hcm (by simpa using hf)
              rw [taskOf_eq hl] at hInv2
              have hndF : (fuseKeys g).Nodup := hgnd.filter _
              obtain ⟨f2, h2⟩ := ih.1 (fuseKeys g) t0 v hndF hev2 hInv2
              refine ⟨f2 + 1, ?_⟩
              rw [evalT, evalStep, hl]
              exact h2
        | tlist ts =>
          rw [expandT_tlist, evalT, evalStep] at hev
          cases hvs : evalList (evalT (glookup (fuse g)) fp) (expandL g rem ts) with
          | error e => rw [hvs, except_bind_error] at hev; cases hev
          | ok vs =>
            rw [hvs, except_bind_ok] at hev
            cases hev
            obtain ⟨f2, h2⟩ := ih.2 rem ts vs hnd hvs (invR_of_tlist hInv)
            exact ⟨f2 + 1, by rw [evalT, evalStep, h2, except_bind_ok]⟩
        | app fn ts =>
          rw [expandT_app, evalT, evalStep] at hev
          cases hvs : evalList (evalT (glookup (fuse g)) fp) (expandL g rem ts) with
          | error e => rw [hvs, except_bind_error] at hev; cases hev
          | ok vs =>
            rw [hvs, except_bind_ok] at hev
            obtain ⟨f2, h2⟩ := ih.2 rem ts vs hnd hvs (invR_of_app hInv)
            refine ⟨f2 + 1, ?_⟩
            rw [evalT, evalStep, h2, except_bind_ok]
            exact hev
    refine ⟨fun rem t v => taskPart rem.length rem t v rfl, ?_⟩
    intro rem ts
    induction ts using dtlist_ind with
    | h1 =>
      intro vs _ hev _
      rw [expandL_tnil, evalList] at hev
      cases hev
      exact ⟨0, rfl⟩
    | h2 t ts ihts =>
      intro vs hnd hev hInv
      obtain ⟨hIt, hIts⟩ := invRL_cons hInv
      rw [expandL_tcons, evalList] at hev
      cases hv : evalT (glookup (fuse g)) (fp + 1) (expandT g rem t) with
      | error e => rw [hv, except_bind_error] at hev; cases hev
      | ok v =>
        rw [hv, except_bind_ok] at hev
        cases hvs : evalList (evalT (glookup (fuse g)) (fp + 1)) (expandL g rem ts) with
        | error e => rw [hvs, except_bind_error] at hev; cases hev
        | ok vs0 =>
          rw [hvs, except_bind_ok] at hev
          cases hev
          obtain ⟨fa, ha⟩ := taskPart rem.length rem t v rfl hnd hv hIt
          obtain ⟨fb, hb⟩ := ihts vs0 hnd hvs hIts
          have ha2 : evalT (glookup g) (max fa fb) t = .ok v :=
            evalT_mono (le_max_left _ _) ha
          have hb2 : evalList (evalT (glookup g) (max fa fb)) ts = .ok vs0 :=
            evalList_ok_of_imp (fun t0 v0 h0 => evalT_mono (le_max_right fa fb) h0)
              _ _ hb
          refine ⟨max fa fb, ?_⟩
          rw [evalList, ha2, except_bind_ok, hb2, except_bind_ok]

/-- Claim C4.  For every task graph (with the dictionary property that keys
are unique), `fuse` never changes the externally observable value of a
surviving key: evaluation of any key present in the fused graph succeeds
with exactly the same values as in the original graph (in both directions,
over unconstrained recursion budgets); and a key with more than one
dependent is never eliminated by fusion. -/
theorem fuse_preserves_get (g : DGraph) (hnd : (gkeys g).Nodup) :
    (∀ k, k ∈ gkeys (fuse g) →
      ∀ v, GetK (glookup g) k v ↔ GetK (glookup (fuse g)) k v) ∧
    (∀ c, c ∈ gkeys g → 2 ≤ (dependents g c).length → c ∈ gkeys (fuse g)) := by
  constructor
  · intro k hk v
    obtain ⟨hkg, hknf⟩ := (gkeys_fuse g k).1 hk
    obtain ⟨t0, ht0⟩ := (mem_gkeys_iff g k).1 hkg
    have hndF : (fuseKeys g).Nodup := hnd.filter _
    have hInv : InvR g (fuseKeys g) t0 := by
      have h := invR_full hkg hknf
      rwa [taskOf_eq ht0] at h
    constructor
    · rintro ⟨f, hf⟩
      rcases f with _ | fp
      · rw [evalT] at hf; cases hf
      · rw [evalT, evalStep, ht0] at hf
        obtain ⟨f2, h2⟩ := (fuse_fwd g hnd fp).1 (fuseKeys g) t0 v hndF hf hInv
        refine ⟨f2 + 1, ?_⟩
        rw [evalT, evalStep]
        rw [fuse_lookup, if_neg (by simp [hknf]), ht0]
        exact h2
    · rintro ⟨f, hf⟩
      rcases f with _ | fp
      · rw [evalT] at hf; cases hf
      · rw [evalT, evalStep] at hf
        rw [fuse_lookup, if_neg (by simp [hknf]), ht0] at hf
        have hf2 : evalT (glookup (fuse g)) fp (expandT g (fuseKeys g) t0) = .ok v := hf
        obtain ⟨f2, h2⟩ := (fuse_rev g hnd fp).1 (fuseKeys g) t0 v hndF hf2 hInv
        refine ⟨f2 + 1, ?_⟩
        rw [evalT, evalStep, ht0]
        exact h2
  · intro c hc hdep
    rw [gkeys_fuse]
    refine ⟨hc, ?_⟩
    by_contra hnef
    have hf : fusableB g c = true := by
      cases hb : fusableB g c
      · exact absurd hb hnef
      · rfl
    have hglob := fus_globalOcc hf
    have hndd : (dependents g c).Nodup := hnd.filter _
    obtain ⟨p1, p2, rest, hdl⟩ : ∃ p1 p2 rest, dependents g c = p1 :: p2 :: rest := by
      cases hdl : dependents g c with
      | nil => rw [hdl] at hdep; simp at hdep
      | cons p1 tail =>
        cases tail with
        | nil => rw [hdl] at hdep; simp at hdep
        | cons p2 rest => exact ⟨p1, p2, rest, rfl⟩
    have hmem1 : p1 ∈ dependents g c := by
      rw [hdl]; exact List.mem_cons_self _ _
    have hmem2 : p2 ∈ dependents g c := by
      rw [hdl]; exact List.mem_cons.2 (.inr (List.mem_cons_self _ _))
    have hne : p1 ≠ p2 := by
      rw [hdl] at hndd
      intro heq
      exact (List.nodup_cons.1 hndd).1 (heq ▸ List.mem_cons_self _ _)
    have h1 := List.mem_filter.1 hmem1
    have h2 := List.mem_filter.1 hmem2
    have ho1 : occT c (taskOf g p1) ≠ 0 := by simpa using h1.2
    have ho2 : occT c (taskOf g p2) ≠ 0 := by simpa using h2.2
    have := globalOcc_ge_two hne h1.1 h2.1 ho1 ho2
    omega

/-- Witness for C4: in the concrete graph where key 0 is a literal with two
dependents, key 0 survives fusion and keeps its value in the fused graph. -/
theorem fuse_preserves_get_witness :
    0 ∈ gkeys (fuse c4WitnessGraph) ∧
    GetK (glookup (fuse c4WitnessGraph)) 0 (.vi 5) := by
  have h := fuse_preserves_get c4WitnessGraph (by decide)
  have h0 : 0 ∈ gkeys (fuse c4WitnessGraph) := h.2 0 (by decide) (by decide)
  exact ⟨h0, (h.1 0 h0 (.vi 5)).mp ⟨2, by rfl⟩⟩

/-- Validation of the fusion model against the normative test suite: the
last `test_fuse` case, `{a: 1, b: (inc, a), c: (add, b, b)}`, fuses `a`
into `b` but keeps `b`, which `c` references twice. -/
theorem fuse_matches_test_case :
    fuse [(0, .lit 1), (1, .app .finc (.tcons (.key 0) .tnil)),
          (2, .app .fadd (.tcons (.key 1) (.tcons (.key 1) .tnil)))]
      = [(1, .app .finc (.tcons (.lit 1) .tnil)),
         (2, .app .fadd (.tcons (.key 1) (.tcons (.key 1) .tnil)))] := by
  set X : DGraph :=
    [(0, .lit 1), (1, .app .finc (.tcons (.key 0) .tnil)),
     (2, .app .fadd (.tcons (.key 1) (.tcons (.key 1) .tnil)))] with hX
  have h0 : fusableB X 0 = true := by rfl
  have h1 : fusableB X 1 = false := by rfl
  have h2 : fusableB X 2 = false := by rfl
  have hfk : fuseKeys X = [0] := by rfl
  have ht0 : taskOf X 0 = DTask.lit 1 := by rfl
  rw [show fuse X = fuseAux X X from rfl]
  rw [hX]
  rw [fuseAux, fuseAux, fuseAux, fuseAux]
  rw [← hX]
  rw [if_pos h0, if_neg (by simp [h1]), if_neg (by simp [h2])]
  rw [hfk]
  rw [expandT_app, expandL_tcons, expandL_tnil]
  rw [expandT_key_pos (by decide) h0, ht0, expandT_lit]
  rw [expandT_app, expandL_tcons, expandL_tcons, expandL_tnil]
  rw [expandT_key_neg (by simp [h1])]
